import Mathlib

/-!
# Verification of swcgeom's branch-tree reduction and geometric transforms

This file embeds the core of the `swcgeom` repository in Lean 4:

* `src/swcgeom/transforms/geometry.py` — the `_Transform` family
  (`Translate`, `Scale`, `Rotate`, `RotateX/Y/Z`) and `Normalizer`;
* `src/swcgeom/core/branch_tree.py` — `BranchTree.from_tree`,
  `BranchTree.get_branches`, `BranchTree.get_node_branches`.

Machine floats are embedded as rationals (`ℚ`); trigonometric values are
passed as explicit cosine/sine parameters since they are computed upstream
of the embedded code.  Collaborator code that is not part of the sources
(`utils.translate3d`/`scale3d`/`rotate3d*`, `Tree.get_branches`,
`tree_utils.to_sub_tree`) is modelled from the specification, as flagged
in the corresponding doc comments.
-/

namespace Swcgeom

/-! ## Homogeneous 4-vectors and 4×4 matrices (row-vector convention) -/

/-- A homogeneous 4-component row vector with rational entries. -/
structure Vec4 where
  x : ℚ
  y : ℚ
  z : ℚ
  w : ℚ
deriving DecidableEq, Repr

/-- A 4×4 matrix, stored as its four rows. -/
structure Mat4 where
  r0 : Vec4
  r1 : Vec4
  r2 : Vec4
  r3 : Vec4
deriving DecidableEq, Repr

/-- Row-vector-times-matrix product `v · M` (the spec's convention:
a point transforms as `p' = [x,y,z,1] · M`). -/
def mulVM (v : Vec4) (m : Mat4) : Vec4 :=
  ⟨v.x * m.r0.x + v.y * m.r1.x + v.z * m.r2.x + v.w * m.r3.x,
   v.x * m.r0.y + v.y * m.r1.y + v.z * m.r2.y + v.w * m.r3.y,
   v.x * m.r0.z + v.y * m.r1.z + v.z * m.r2.z + v.w * m.r3.z,
   v.x * m.r0.w + v.y * m.r1.w + v.z * m.r2.w + v.w * m.r3.w⟩

/-- Matrix product `A · B` (as in numpy's `A.dot(B)`); row `i` of the
product is row `i` of `A` multiplied by `B`. -/
def matMul (a b : Mat4) : Mat4 :=
  ⟨mulVM a.r0 b, mulVM a.r1 b, mulVM a.r2 b, mulVM a.r3 b⟩

/-- Modelled from the spec: `utils.translate3d` (not under `src/`) builds the
homogeneous translation matrix; in the row-vector convention the offsets sit
in the bottom row so that `[x,y,z,1] · T = [x+tx, y+ty, z+tz, 1]`. -/
def translate3d (tx ty tz : ℚ) : Mat4 :=
  ⟨⟨1, 0, 0, 0⟩, ⟨0, 1, 0, 0⟩, ⟨0, 0, 1, 0⟩, ⟨tx, ty, tz, 1⟩⟩

/-- Modelled from the spec: `utils.scale3d` (not under `src/`) builds the
pure diagonal scale matrix. -/
def scale3d (sx sy sz : ℚ) : Mat4 :=
  ⟨⟨sx, 0, 0, 0⟩, ⟨0, sy, 0, 0⟩, ⟨0, 0, sz, 0⟩, ⟨0, 0, 0, 1⟩⟩

/-- Modelled from the spec: `utils.rotate3d` (not under `src/`) builds the
Rodrigues rotation about the unit axis `(nx, ny, nz)`; the trigonometric
values `c = cos θ`, `s = sin θ` are passed explicitly.  The linear 3×3 block
is `c·I + s·K + (1−c)·nnᵀ` and the homogeneous row/column are `(0,0,0,1)`. -/
def rotate3d (nx ny nz c s : ℚ) : Mat4 :=
  ⟨⟨c + nx * nx * (1 - c), nx * ny * (1 - c) + nz * s, nx * nz * (1 - c) - ny * s, 0⟩,
   ⟨ny * nx * (1 - c) - nz * s, c + ny * ny * (1 - c), ny * nz * (1 - c) + nx * s, 0⟩,
   ⟨nz * nx * (1 - c) + ny * s, nz * ny * (1 - c) - nx * s, c + nz * nz * (1 - c), 0⟩,
   ⟨0, 0, 0, 1⟩⟩

/-- Modelled from the spec: `utils.rotate3d_x` (not under `src/`), the
axis-aligned rotation about the x axis with `c = cos θ`, `s = sin θ`. -/
def rotate3d_x (c s : ℚ) : Mat4 :=
  ⟨⟨1, 0, 0, 0⟩, ⟨0, c, s, 0⟩, ⟨0, -s, c, 0⟩, ⟨0, 0, 0, 1⟩⟩

/-- Modelled from the spec: `utils.rotate3d_y` (not under `src/`). -/
def rotate3d_y (c s : ℚ) : Mat4 :=
  ⟨⟨c, 0, -s, 0⟩, ⟨0, 1, 0, 0⟩, ⟨s, 0, c, 0⟩, ⟨0, 0, 0, 1⟩⟩

/-- Modelled from the spec: `utils.rotate3d_z` (not under `src/`). -/
def rotate3d_z (c s : ℚ) : Mat4 :=
  ⟨⟨c, s, 0, 0⟩, ⟨-s, c, 0, 0⟩, ⟨0, 0, 1, 0⟩, ⟨0, 0, 0, 1⟩⟩

/-! ## SWC node data and the transform engine -/

/-- One SWC record: id, 3D position, radius, parent id (`-1` = root),
mirroring one row of `DictSWC.ndata`. -/
structure SWCNode where
  id : Int
  x : ℚ
  y : ℚ
  z : ℚ
  r : ℚ
  pid : Int
deriving DecidableEq, Repr

/-- A tree's node table (`DictSWC.ndata`), in file order. -/
abbrev DictSWC := List SWCNode

/-- The pivot mode, `Center = Literal["root", "soma", "origin"]`
in `transforms/geometry.py`. -/
inductive Center where
  | root
  | soma
  | origin
deriving DecidableEq, Repr

/-- The `_Transform` value object of `transforms/geometry.py`: a raw 4×4
matrix `tm`, a pivot mode `center`, and a display label `fmt`. -/
structure GeomTransform where
  tm : Mat4
  center : Center
  fmt : String
deriving DecidableEq, Repr

/-- Source `_Transform.__init__`: `center` defaults to `"origin"` when not supplied
(the absent argument is modelled as `none`). -/
def mkTransform (tm : Mat4) (center : Option Center) (fmt : String) : GeomTransform :=
  ⟨tm, center.getD Center.origin, fmt⟩

/-- The nodes selected by `np.nonzero(x.ndata[pid] == -1)`: the sublist of
records whose parent id is the root sentinel `-1`. -/
def rootRecords (x : DictSWC) : List SWCNode :=
  x.filter (fun n => decide (n.pid = -1))

/-- The effective matrix computed by the `match self.center` block of
`_Transform.__call__`: in `root`/`soma` mode the unique root record is
located (`.item()` fails unless exactly one index qualifies) and the raw
matrix is conjugated as `translate3d(-xyz) · tm · translate3d(xyz)`;
in `origin` mode the raw matrix is used unchanged. -/
def effectiveTm (tf : GeomTransform) (x : DictSWC) : Option Mat4 :=
  match tf.center with
  | Center.root | Center.soma =>
      match rootRecords x with
      | [n] => some (matMul (matMul (translate3d (-n.x) (-n.y) (-n.z)) tf.tm)
                            (translate3d n.x n.y n.z))
      | _ => none
  | Center.origin => some tf.tm

/-- Source `_Transform.__call__`: compute the effective matrix, multiply every
homogeneous position `[x,y,z,1]` by it, and write the first three components
back into a copy of the tree (ids, parent ids and radii are untouched). -/
def transformApply (tf : GeomTransform) (x : DictSWC) : Option DictSWC :=
  (effectiveTm tf x).map (fun tm =>
    x.map (fun n =>
      let v := mulVM ⟨n.x, n.y, n.z, 1⟩ tm
      { n with x := v.x, y := v.y, z := v.z }))

/-- Source `Translate.__init__`: raw matrix `translate3d(tx,ty,tz)`; no `center`
argument exists, so `_Transform.__init__`'s own default `"origin"` applies. -/
def TranslateT (tx ty tz : ℚ) : GeomTransform :=
  mkTransform (translate3d tx ty tz) none
    ("Translate-" ++ toString tx ++ "-" ++ toString ty ++ "-" ++ toString tz)

/-- Source `Scale.__init__`: raw matrix `scale3d(sx,sy,sz)`; the `center` parameter
defaults to `"root"` when not supplied (absent = `none`). -/
def ScaleT (sx sy sz : ℚ) (center : Option Center) : GeomTransform :=
  mkTransform (scale3d sx sy sz) (some (center.getD Center.root))
    ("Scale-" ++ toString sx ++ "-" ++ toString sy ++ "-" ++ toString sz)

/-- Source `Rotate.__init__`: raw matrix `rotate3d(n, θ)` with `c = cos θ`,
`s = sin θ` passed explicitly; `center` defaults to `"root"`. -/
def RotateT (nx ny nz c s : ℚ) (theta : ℚ) (center : Option Center) : GeomTransform :=
  mkTransform (rotate3d nx ny nz c s) (some (center.getD Center.root))
    ("Rotate-" ++ toString nx ++ "-" ++ toString ny ++ "-" ++ toString nz
      ++ "-" ++ toString theta)

/-- Source `RotateX.__init__`: raw matrix `rotate3d_x(θ)`; `center` defaults to
`"root"`; label `f"RotateX-{theta}"`. -/
def RotateXT (c s : ℚ) (theta : ℚ) (center : Option Center) : GeomTransform :=
  mkTransform (rotate3d_x c s) (some (center.getD Center.root))
    ("RotateX-" ++ toString theta)

/-- Source `RotateY.__init__`: raw matrix `rotate3d_y(θ)`; `center` defaults to
`"root"`; the label in the source reads `f"RotateX-{theta}"` (sic). -/
def RotateYT (c s : ℚ) (theta : ℚ) (center : Option Center) : GeomTransform :=
  mkTransform (rotate3d_y c s) (some (center.getD Center.root))
    ("RotateX-" ++ toString theta)

/-- Source `RotateZ.__init__`: raw matrix `rotate3d_z(θ)`; `center` defaults to
`"root"`; the label in the source reads `f"RotateX-{theta}"` (sic). -/
def RotateZT (c s : ℚ) (theta : ℚ) (center : Option Center) : GeomTransform :=
  mkTransform (rotate3d_z c s) (some (center.getD Center.root))
    ("RotateX-" ++ toString theta)

/-! ## Normalizer -/

/-- Minimum of a list of rationals (`np.min`; junk value `0` on the empty
list, which `np.min` rejects). -/
def listMin : List ℚ → ℚ
  | [] => 0
  | h :: t => t.foldl min h

/-- Maximum of a list of rationals (`np.max`; junk value `0` on the empty
list, which `np.max` rejects). -/
def listMax : List ℚ → ℚ
  | [] => 0
  | h :: t => t.foldl max h

/-- Source `Normalizer.__call__`: for each of the four fields `x`, `y`, `z`, `r`
independently, replace the column `vs` by `(vs - np.min(vs)) / np.max(vs)`.
Note the divisor is the column's original maximum, not its range.
(Rational division by zero is `0` here; in the float source it is
non-finite.) -/
def normalizer (t : DictSWC) : DictSWC :=
  t.map (fun n =>
    { n with
      x := (n.x - listMin (t.map SWCNode.x)) / listMax (t.map SWCNode.x)
      y := (n.y - listMin (t.map SWCNode.y)) / listMax (t.map SWCNode.y)
      z := (n.z - listMin (t.map SWCNode.z)) / listMax (t.map SWCNode.z)
      r := (n.r - listMin (t.map SWCNode.r)) / listMax (t.map SWCNode.r) })


/-! ## Rooted trees and branch extraction -/

/-- Modelled from the spec: the Node Tree data model (§3) — the `Tree` class
is not under `src/`.  A proper rooted tree (acyclic, connected, single root)
is embedded as a rose tree; only node identity is carried because the
branch-tree claims concern ids, counts and topology alone. -/
inductive RTree where
  | mk (id : Int) (children : List RTree)

/-- Id of a tree's root node. -/
def RTree.rootId : RTree → Int
  | .mk i _ => i

/-- Subtrees hanging off a tree's root node. -/
def RTree.children : RTree → List RTree
  | .mk _ cs => cs

mutual

/-- All node ids of the tree, in preorder. -/
def nodeIds : RTree → List Int
  | .mk i cs => i :: nodeIdsF cs

/-- All node ids of a forest, in preorder. -/
def nodeIdsF : List RTree → List Int
  | [] => []
  | c :: cs => nodeIds c ++ nodeIdsF cs

end

/-- A tree is valid when its node ids are pairwise distinct (the remaining
§3 invariants — acyclicity, connectedness, unique root — are inherent in
the rose-tree representation). -/
def RTree.valid (t : RTree) : Prop := (nodeIds t).Nodup

instance (t : RTree) : Decidable t.valid := by
  unfold RTree.valid; infer_instance

mutual

/-- Ids of the significant nodes (child count ≠ 1: branching nodes and
tips) of the tree, in preorder. -/
def sigIds : RTree → List Int
  | .mk i cs => (if cs.length = 1 then [] else [i]) ++ sigIdsF cs

/-- Ids of the significant nodes of a forest, in preorder. -/
def sigIdsF : List RTree → List Int
  | [] => []
  | c :: cs => sigIds c ++ sigIdsF cs

end

mutual

/-- Ids of the branching nodes (≥ 2 children) of the tree, in preorder. -/
def branchingIds : RTree → List Int
  | .mk i cs => (if 2 ≤ cs.length then [i] else []) ++ branchingIdsF cs

/-- Ids of the branching nodes of a forest, in preorder. -/
def branchingIdsF : List RTree → List Int
  | [] => []
  | c :: cs => branchingIds c ++ branchingIdsF cs

end

mutual

/-- Ids of the tip nodes (no children) of the tree, in preorder. -/
def tipIds : RTree → List Int
  | .mk i cs => (if cs.length = 0 then [i] else []) ++ tipIdsF cs

/-- Ids of the tip nodes of a forest, in preorder. -/
def tipIdsF : List RTree → List Int
  | [] => []
  | c :: cs => tipIds c ++ tipIdsF cs

end

mutual

/-- Modelled from the spec: the Branch Extractor walk (`Tree.get_branches`
is not under `src/`).  `goBranch t acc` continues the branch whose already
visited ids are `acc` (most recent first) into the subtree `t`: a tip closes
the branch; a pass-through node (exactly one child) extends it; a branching
node closes it and starts one fresh branch per child.  The forking node is
the last node of the incoming branch and the first node of each outgoing
branch, the convention `BranchTree.from_tree` relies on. -/
def goBranch : RTree → List Int → List (List Int)
  | .mk i [], acc => [(i :: acc).reverse]
  | .mk i [c], acc => goBranch c (i :: acc)
  | .mk i (c1 :: c2 :: cs), acc =>
      (i :: acc).reverse :: goBranchF (c1 :: c2 :: cs) i

/-- Branches collected from a forest of subtrees hanging off the
significant node `i`; each subtree starts a fresh branch at `i`. -/
def goBranchF : List RTree → Int → List (List Int)
  | [], _ => []
  | c :: cs, i => goBranch c [i] ++ goBranchF cs i

end

/-- Modelled from the spec: `Tree.get_branches` — the ordered list of
Branches of the tree, each an id sequence running parent→child from a
significant node to the next significant node. -/
def extractBranches : RTree → List (List Int)
  | .mk i cs => goBranchF cs i

/-- First (proximal) id of a branch, as `br[0].id` reads it. -/
def headId (br : List Int) : Int := br.headD 0

/-- Last (distal) id of a branch, as `br[-1].id` reads it. -/
def tailId (br : List Int) : Int := br.getLastD 0

/-- The `sub_id` list built by `BranchTree.from_tree`: the last id of every
branch, with the literal id `0` inserted in front for the root. -/
def subIds (brs : List (List Int)) : List Int := 0 :: brs.map tailId

/-- The `sub_pid` list built by `BranchTree.from_tree`: the first id of
every branch, with the parent sentinel `-1` inserted in front. -/
def subPids (brs : List (List Int)) : List Int := (-1) :: brs.map headId

/-- Position of the first occurrence of `a` in `l`, used as the new dense
id of a retained original id. -/
def idIndex? (l : List Int) (a : Int) : Option Nat :=
  match l with
  | [] => none
  | b :: l => if b = a then some 0 else (idIndex? l a).map (· + 1)

/-- Modelled from the spec: `tree_utils.to_sub_tree` (not under `src/`).
Given the retained ids with their retained parent ids, it returns the
reduced tree's node count together with the id remap table
(original id → new dense id, new ids being positions in the retained list,
root first).  The request must be well-formed: retained ids distinct and
present in the tree, and every parent entry either `-1` or retained. -/
def toSubTree (t : RTree) (ids pids : List Int) :
    Option (Nat × (Int → Option Nat)) :=
  if ids.Nodup ∧ (∀ i ∈ ids, i ∈ nodeIds t) ∧ (∀ p ∈ pids, p = -1 ∨ p ∈ ids)
  then some (ids.length, fun i => idIndex? ids i)
  else none

/-- A Python dict from new node id to the list of branches filed under it,
in insertion order (`branch_tree.branches`). -/
abbrev BranchDict := List (Nat × List (List Int))

/-- Source `branch_tree.branches.setdefault(idx, []); ...append(...)`:
append `v` to the list at key `k`, creating the key at the end of the dict
when absent (Python dict insertion order). -/
def dictAppend (d : BranchDict) (k : Nat) (v : List Int) : BranchDict :=
  match d with
  | [] => [(k, [v])]
  | (k', vs) :: rest =>
      if k' = k then (k', vs ++ [v]) :: rest
      else (k', vs) :: dictAppend rest k v

/-- Dict lookup `d[k]`, `none` meaning a `KeyError`. -/
def dictGet? (d : BranchDict) (k : Nat) : Option (List (List Int)) :=
  match d with
  | [] => none
  | (k', vs) :: rest => if k' = k then some vs else dictGet? rest k

/-- Keys of the branch dict, in insertion order. -/
def dictKeys (d : BranchDict) : List Nat := d.map Prod.fst

/-- Source `BranchTree.from_tree`'s attachment loop: each branch is filed
under `id_map[branch_raw[0].id]`; a failing remap lookup (a `KeyError` in
the source) aborts. -/
def attachBranches (idmap : Int → Option Nat) :
    List (List Int) → BranchDict → Option BranchDict
  | [], d => some d
  | br :: rest, d =>
      match idmap (headId br) with
      | none => none
      | some k => attachBranches idmap rest (dictAppend d k br)

/-- The `BranchTree` object: the reduced tree's node count and the dict of
attached branches keyed by new node id. -/
structure BranchTreeM where
  count : Nat
  branches : BranchDict
deriving DecidableEq, Repr

/-- Source `BranchTree.get_branches`: all branches across all dict entries,
flattened in dict order. -/
def getBranches (bt : BranchTreeM) : List (List Int) :=
  bt.branches.flatMap Prod.snd

/-- Source `BranchTree.get_node_branches`: the dict lookup
`self.branches[idx]`; `none` is the source's `KeyError`. -/
def getNodeBranches? (bt : BranchTreeM) (idx : Nat) : Option (List (List Int)) :=
  dictGet? bt.branches idx

/-- Source `BranchTree.from_tree`: extract the branches, build `sub_id` and
`sub_pid` (root inserted with literal id `0` and sentinel `-1`), call the
Sub-Tree Builder, then file each branch under the remapped id of its first
node. -/
def fromTree (t : RTree) : Option BranchTreeM :=
  let brs := extractBranches t
  match toSubTree t (subIds brs) (subPids brs) with
  | none => none
  | some (cnt, idmap) =>
      (attachBranches idmap brs []).map (fun d => ⟨cnt, d⟩)

/-! ## Matrix lemmas -/

theorem mulVM_matMul (v : Vec4) (a b : Mat4) :
    mulVM v (matMul a b) = mulVM (mulVM v a) b := by
  obtain ⟨⟨_, _, _, _⟩, ⟨_, _, _, _⟩, ⟨_, _, _, _⟩, ⟨_, _, _, _⟩⟩ := a
  obtain ⟨⟨_, _, _, _⟩, ⟨_, _, _, _⟩, ⟨_, _, _, _⟩, ⟨_, _, _, _⟩⟩ := b
  obtain ⟨_, _, _, _⟩ := v
  simp only [mulVM, matMul, Vec4.mk.injEq]
  refine ⟨by ring, by ring, by ring, by ring⟩

theorem mulVM_conjugate_fixed (m : Mat4) (hm : m.r3 = ⟨0, 0, 0, 1⟩)
    (cx cy cz : ℚ) :
    mulVM ⟨cx, cy, cz, 1⟩
      (matMul (matMul (translate3d (-cx) (-cy) (-cz)) m)
        (translate3d cx cy cz)) = ⟨cx, cy, cz, 1⟩ := by
  obtain ⟨⟨_, _, _, _⟩, ⟨_, _, _, _⟩, ⟨_, _, _, _⟩, r3⟩ := m
  obtain rfl : r3 = ⟨0, 0, 0, 1⟩ := hm
  simp only [mulVM, matMul, translate3d, Vec4.mk.injEq]
  refine ⟨by ring, by ring, by ring, by ring⟩

/-! ## Claim C1 -/

/-- C1: for every tree with a unique parent-sentinel record and every
root-pivoted (`root`/`soma`) `Scale` or `Rotate`-family transform, the
effective matrix is `T(-c) · M_raw · T(c)` where `c` is the root record's
position, and application leaves the root record (in particular its
position) unchanged. -/
theorem root_pivot_fixes_root (tf : GeomTransform) (x : DictSWC) (n : SWCNode)
    (hc : tf.center = Center.root ∨ tf.center = Center.soma)
    (hr : rootRecords x = [n])
    (hm : (∃ sx sy sz, tf.tm = scale3d sx sy sz) ∨
          (∃ nx ny nz c s, tf.tm = rotate3d nx ny nz c s) ∨
          (∃ c s, tf.tm = rotate3d_x c s) ∨
          (∃ c s, tf.tm = rotate3d_y c s) ∨
          (∃ c s, tf.tm = rotate3d_z c s)) :
    effectiveTm tf x =
      some (matMul (matMul (translate3d (-n.x) (-n.y) (-n.z)) tf.tm)
        (translate3d n.x n.y n.z)) ∧
    ∃ y, transformApply tf x = some y ∧
      ∀ (i : Nat) (m : SWCNode), x[i]? = some m → m.pid = -1 → y[i]? = some m := by
  have hr3 : tf.tm.r3 = ⟨0, 0, 0, 1⟩ := by
    rcases hm with ⟨sx, sy, sz, h⟩ | ⟨nx, ny, nz, c, s, h⟩ | ⟨c, s, h⟩ |
      ⟨c, s, h⟩ | ⟨c, s, h⟩ <;>
      simp [h, scale3d, rotate3d, rotate3d_x, rotate3d_y, rotate3d_z]
  have htm : effectiveTm tf x =
      some (matMul (matMul (translate3d (-n.x) (-n.y) (-n.z)) tf.tm)
        (translate3d n.x n.y n.z)) := by
    rcases hc with h | h <;> simp [effectiveTm, h, hr]
  refine ⟨htm, x.map (fun p =>
      { p with
        x := (mulVM ⟨p.x, p.y, p.z, 1⟩
          (matMul (matMul (translate3d (-n.x) (-n.y) (-n.z)) tf.tm)
            (translate3d n.x n.y n.z))).x
        y := (mulVM ⟨p.x, p.y, p.z, 1⟩
          (matMul (matMul (translate3d (-n.x) (-n.y) (-n.z)) tf.tm)
            (translate3d n.x n.y n.z))).y
        z := (mulVM ⟨p.x, p.y, p.z, 1⟩
          (matMul (matMul (translate3d (-n.x) (-n.y) (-n.z)) tf.tm)
            (translate3d n.x n.y n.z))).z }), ?_, ?_⟩
  · simp [transformApply, htm]
  intro i m hi hpid
  have hmem : m ∈ x := List.getElem?_mem hi
  have hmf : m ∈ rootRecords x := by
    simp [rootRecords, List.mem_filter, hmem, hpid]
  rw [hr, List.mem_singleton] at hmf
  subst hmf
  simp only [transformApply, htm, Option.map_some', List.getElem?_map, hi,
    Option.some.injEq]
  have hfix := mulVM_conjugate_fixed tf.tm hr3 m.x m.y m.z
  rw [hfix]

/-- Witness for `root_pivot_fixes_root`: a default-pivot `Scale` on a
two-node tree whose root sits at `(5, 0, 0)`. -/
theorem root_pivot_fixes_root_witness :
    effectiveTm (ScaleT 2 3 4 none)
        [⟨0, 5, 0, 0, 1, -1⟩, ⟨1, 6, 1, 0, 1, 0⟩] =
      some (matMul (matMul (translate3d (-5) (-0) (-0)) (ScaleT 2 3 4 none).tm)
        (translate3d 5 0 0)) ∧
    ∃ y, transformApply (ScaleT 2 3 4 none)
        [⟨0, 5, 0, 0, 1, -1⟩, ⟨1, 6, 1, 0, 1, 0⟩] = some y ∧
      ∀ (i : Nat) (m : SWCNode),
        ([⟨0, 5, 0, 0, 1, -1⟩, ⟨1, 6, 1, 0, 1, 0⟩] : DictSWC)[i]? = some m →
        m.pid = -1 → y[i]? = some m :=
  root_pivot_fixes_root (ScaleT 2 3 4 none)
    [⟨0, 5, 0, 0, 1, -1⟩, ⟨1, 6, 1, 0, 1, 0⟩] ⟨0, 5, 0, 0, 1, -1⟩
    (Or.inl rfl) (by decide) (Or.inl ⟨2, 3, 4, rfl⟩)

/-! ## Claims C8, C10, C9 -/

/-- C8: a root-pivoted (`root`/`soma`) transform fails whenever the number
of parent-sentinel records differs from one (the `.item()` root lookup),
while an origin-pivot transform performs no root lookup: it always succeeds
and applies its raw matrix, whatever the sentinel records are. -/
theorem ambiguous_root_fails (tf : GeomTransform) (x : DictSWC) :
    ((tf.center = Center.root ∨ tf.center = Center.soma) →
      (rootRecords x).length ≠ 1 → transformApply tf x = none) ∧
    (tf.center = Center.origin →
      transformApply tf x = some (x.map (fun n =>
        { n with
          x := (mulVM ⟨n.x, n.y, n.z, 1⟩ tf.tm).x
          y := (mulVM ⟨n.x, n.y, n.z, 1⟩ tf.tm).y
          z := (mulVM ⟨n.x, n.y, n.z, 1⟩ tf.tm).z }))) := by
  constructor
  · intro hc hlen
    have hnone : effectiveTm tf x = none := by
      rcases hc with h | h <;>
      · simp only [effectiveTm, h]
        rcases hx : rootRecords x with _ | ⟨a, _ | ⟨b, l⟩⟩
        · rfl
        · exact absurd (by simp [hx]) hlen
        · rfl
    simp [transformApply, hnone]
  · intro h
    simp [transformApply, effectiveTm, h]

/-- Witness for `ambiguous_root_fails`: a tree artificially given two
parent-sentinel records makes a root-pivoted `Scale` fail. -/
theorem ambiguous_root_fails_witness :
    transformApply (ScaleT 2 2 2 none)
      [⟨0, 0, 0, 0, 1, -1⟩, ⟨1, 1, 0, 0, 1, -1⟩] = none :=
  (ambiguous_root_fails (ScaleT 2 2 2 none)
    [⟨0, 0, 0, 0, 1, -1⟩, ⟨1, 1, 0, 0, 1, -1⟩]).1 (Or.inl rfl) (by decide)

/-- C10: when no pivot mode is supplied, `Scale`, `Rotate`, `RotateX`,
`RotateY` and `RotateZ` default to the `root` pivot, while `Translate`
(whose constructor accepts no pivot-mode argument at all) always carries
the `origin` mode inherited from `_Transform.__init__`. -/
theorem default_center_modes (sx sy sz tx ty tz nx ny nz c s theta : ℚ) :
    (ScaleT sx sy sz none).center = Center.root ∧
    (RotateT nx ny nz c s theta none).center = Center.root ∧
    (RotateXT c s theta none).center = Center.root ∧
    (RotateYT c s theta none).center = Center.root ∧
    (RotateZT c s theta none).center = Center.root ∧
    (TranslateT tx ty tz).center = Center.origin :=
  ⟨rfl, rfl, rfl, rfl, rfl, rfl⟩

/-- C9 (code bug): at angle θ = 1 all three axis-aligned rotations carry the
same display label `"RotateX-1"`, because `RotateY.__init__` and
`RotateZ.__init__` reuse the `"RotateX"` format string; the labels are
neither pairwise distinct nor name their own axes. -/
theorem rotate_labels_collide :
    (RotateXT 0 1 1 none).fmt = "RotateX-1" ∧
    (RotateYT 0 1 1 none).fmt = "RotateX-1" ∧
    (RotateZT 0 1 1 none).fmt = "RotateX-1" := by
  refine ⟨?_, ?_, ?_⟩ <;> decide

/-! ## Claim C4 -/

/-- C4 (amended): every matrix transform (`Translate`, `Scale`, `Rotate`,
`RotateX/Y/Z` — any `_Transform.__call__`) returns a new tree with the same
node count, ids, parent relation and radii, only positions changing, while
`Normalizer` preserves node count, ids and the parent relation but rescales
the radius field in addition to the positions. -/
theorem apply_preserves_topology (tf : GeomTransform) (x y : DictSWC)
    (h : transformApply tf x = some y) :
    (y.length = x.length ∧
     y.map SWCNode.id = x.map SWCNode.id ∧
     y.map SWCNode.pid = x.map SWCNode.pid ∧
     y.map SWCNode.r = x.map SWCNode.r) ∧
    ((normalizer x).length = x.length ∧
     (normalizer x).map SWCNode.id = x.map SWCNode.id ∧
     (normalizer x).map SWCNode.pid = x.map SWCNode.pid) := by
  constructor
  · simp only [transformApply] at h
    rcases he : effectiveTm tf x with _ | tm
    · rw [he] at h; cases h
    · rw [he, Option.map_some', Option.some.injEq] at h
      subst h
      refine ⟨by simp, ?_, ?_, ?_⟩ <;> simp [List.map_map, Function.comp]
  · refine ⟨by simp [normalizer], ?_, ?_⟩ <;>
      simp [normalizer, List.map_map, Function.comp]

/-- Witness for `apply_preserves_topology`: an origin-pivot `Translate` by
`(1,2,3)` on a two-node tree, with the output tree spelled out. -/
theorem apply_preserves_topology_witness :
    (([⟨1, 5, 2, 3, 2, -1⟩, ⟨2, 6, 3, 3, 3, 1⟩] : DictSWC).length =
        ([⟨1, 4, 0, 0, 2, -1⟩, ⟨2, 5, 1, 0, 3, 1⟩] : DictSWC).length ∧
     ([⟨1, 5, 2, 3, 2, -1⟩, ⟨2, 6, 3, 3, 3, 1⟩] : DictSWC).map SWCNode.id =
        ([⟨1, 4, 0, 0, 2, -1⟩, ⟨2, 5, 1, 0, 3, 1⟩] : DictSWC).map SWCNode.id ∧
     ([⟨1, 5, 2, 3, 2, -1⟩, ⟨2, 6, 3, 3, 3, 1⟩] : DictSWC).map SWCNode.pid =
        ([⟨1, 4, 0, 0, 2, -1⟩, ⟨2, 5, 1, 0, 3, 1⟩] : DictSWC).map SWCNode.pid ∧
     ([⟨1, 5, 2, 3, 2, -1⟩, ⟨2, 6, 3, 3, 3, 1⟩] : DictSWC).map SWCNode.r =
        ([⟨1, 4, 0, 0, 2, -1⟩, ⟨2, 5, 1, 0, 3, 1⟩] : DictSWC).map SWCNode.r) ∧
    ((normalizer [⟨1, 4, 0, 0, 2, -1⟩, ⟨2, 5, 1, 0, 3, 1⟩]).length =
        ([⟨1, 4, 0, 0, 2, -1⟩, ⟨2, 5, 1, 0, 3, 1⟩] : DictSWC).length ∧
     (normalizer [⟨1, 4, 0, 0, 2, -1⟩, ⟨2, 5, 1, 0, 3, 1⟩]).map SWCNode.id =
        ([⟨1, 4, 0, 0, 2, -1⟩, ⟨2, 5, 1, 0, 3, 1⟩] : DictSWC).map SWCNode.id ∧
     (normalizer [⟨1, 4, 0, 0, 2, -1⟩, ⟨2, 5, 1, 0, 3, 1⟩]).map SWCNode.pid =
        ([⟨1, 4, 0, 0, 2, -1⟩, ⟨2, 5, 1, 0, 3, 1⟩] : DictSWC).map SWCNode.pid) :=
  apply_preserves_topology (TranslateT 1 2 3)
    [⟨1, 4, 0, 0, 2, -1⟩, ⟨2, 5, 1, 0, 3, 1⟩]
    [⟨1, 5, 2, 3, 2, -1⟩, ⟨2, 6, 3, 3, 3, 1⟩] (by
      simp only [transformApply, effectiveTm, TranslateT, mkTransform,
        translate3d, mulVM, Option.getD, Option.map_some', Option.some.injEq]
      norm_num [SWCNode.mk.injEq])

/-- C4 counterexample: `Normalizer` — one of the claim's transform variants,
cited by the claim's own sources — changes the radii: with input radii
`[1, 2]` the output radii are `[0, 1/2]`. -/
theorem normalizer_changes_radii :
    (normalizer [⟨0, 0, 0, 0, 1, -1⟩, ⟨1, 1, 1, 1, 2, 0⟩]).map SWCNode.r ≠
      ([⟨0, 0, 0, 0, 1, -1⟩, ⟨1, 1, 1, 1, 2, 0⟩] : DictSWC).map SWCNode.r := by
  simp only [normalizer, listMin, listMax, List.map_cons, List.map_nil,
    List.foldl_cons, List.foldl_nil]
  norm_num

/-! ## Claim C2 -/

theorem foldl_min_map (f : ℚ → ℚ) (hf : ∀ u v, f (min u v) = min (f u) (f v)) :
    ∀ (l : List ℚ) (a : ℚ), (l.map f).foldl min (f a) = f (l.foldl min a)
  | [], _ => rfl
  | b :: l, a => by
      simp only [List.map_cons, List.foldl_cons, ← hf]
      exact foldl_min_map f hf l (min a b)

theorem foldl_max_map (f : ℚ → ℚ) (hf : ∀ u v, f (max u v) = max (f u) (f v)) :
    ∀ (l : List ℚ) (a : ℚ), (l.map f).foldl max (f a) = f (l.foldl max a)
  | [], _ => rfl
  | b :: l, a => by
      simp only [List.map_cons, List.foldl_cons, ← hf]
      exact foldl_max_map f hf l (max a b)

theorem affine_mono (a M : ℚ) (hM : 0 < M) :
    Monotone (fun v => (v - a) / M) := by
  intro u v huv
  dsimp only
  gcongr

theorem listMin_affine (l : List ℚ) (hl : l ≠ []) (a M : ℚ) (hM : 0 < M) :
    listMin (l.map (fun v => (v - a) / M)) = (listMin l - a) / M := by
  cases l with
  | nil => exact absurd rfl hl
  | cons b t =>
      simp only [List.map_cons, listMin]
      exact foldl_min_map (fun v => (v - a) / M)
        (fun u v => (affine_mono a M hM).map_min) t b

theorem listMax_affine (l : List ℚ) (hl : l ≠ []) (a M : ℚ) (hM : 0 < M) :
    listMax (l.map (fun v => (v - a) / M)) = (listMax l - a) / M := by
  cases l with
  | nil => exact absurd rfl hl
  | cons b t =>
      simp only [List.map_cons, listMax]
      exact foldl_max_map (fun v => (v - a) / M)
        (fun u v => (affine_mono a M hM).map_max) t b

/-- C2 (amended): `Normalizer` maps each of the four fields `x`, `y`, `z`,
`r` independently through `v ↦ (v - min) / max`, dividing by the field's
original maximum rather than by its range; consequently a field ends up
with minimum 0 and maximum 1 exactly under the extra condition that its
original minimum is 0 (and its maximum positive).  With a zero divisor the
float source propagates non-finite values; that happens when the original
maximum is 0, not when the range is 0. -/
theorem normalizer_unit_range (t : DictSWC) (ht : t ≠ []) :
    ((normalizer t).map SWCNode.x = (t.map SWCNode.x).map
        (fun v => (v - listMin (t.map SWCNode.x)) / listMax (t.map SWCNode.x)) ∧
     (normalizer t).map SWCNode.y = (t.map SWCNode.y).map
        (fun v => (v - listMin (t.map SWCNode.y)) / listMax (t.map SWCNode.y)) ∧
     (normalizer t).map SWCNode.z = (t.map SWCNode.z).map
        (fun v => (v - listMin (t.map SWCNode.z)) / listMax (t.map SWCNode.z)) ∧
     (normalizer t).map SWCNode.r = (t.map SWCNode.r).map
        (fun v => (v - listMin (t.map SWCNode.r)) / listMax (t.map SWCNode.r))) ∧
    ((listMin (t.map SWCNode.x) = 0 → 0 < listMax (t.map SWCNode.x) →
      listMin ((normalizer t).map SWCNode.x) = 0 ∧
      listMax ((normalizer t).map SWCNode.x) = 1) ∧
     (listMin (t.map SWCNode.y) = 0 → 0 < listMax (t.map SWCNode.y) →
      listMin ((normalizer t).map SWCNode.y) = 0 ∧
      listMax ((normalizer t).map SWCNode.y) = 1) ∧
     (listMin (t.map SWCNode.z) = 0 → 0 < listMax (t.map SWCNode.z) →
      listMin ((normalizer t).map SWCNode.z) = 0 ∧
      listMax ((normalizer t).map SWCNode.z) = 1) ∧
     (listMin (t.map SWCNode.r) = 0 → 0 < listMax (t.map SWCNode.r) →
      listMin ((normalizer t).map SWCNode.r) = 0 ∧
      listMax ((normalizer t).map SWCNode.r) = 1)) := by
  have hx : (normalizer t).map SWCNode.x = (t.map SWCNode.x).map
      (fun v => (v - listMin (t.map SWCNode.x)) / listMax (t.map SWCNode.x)) := by
    simp [normalizer, List.map_map]
  have hy : (normalizer t).map SWCNode.y = (t.map SWCNode.y).map
      (fun v => (v - listMin (t.map SWCNode.y)) / listMax (t.map SWCNode.y)) := by
    simp [normalizer, List.map_map]
  have hz : (normalizer t).map SWCNode.z = (t.map SWCNode.z).map
      (fun v => (v - listMin (t.map SWCNode.z)) / listMax (t.map SWCNode.z)) := by
    simp [normalizer, List.map_map]
  have hrr : (normalizer t).map SWCNode.r = (t.map SWCNode.r).map
      (fun v => (v - listMin (t.map SWCNode.r)) / listMax (t.map SWCNode.r)) := by
    simp [normalizer, List.map_map]
  have hne : ∀ f : SWCNode → ℚ, t.map f ≠ [] := by
    intro f h
    exact ht (List.map_eq_nil_iff.mp h)
  refine ⟨⟨hx, hy, hz, hrr⟩, ?_, ?_, ?_, ?_⟩ <;>
    intro hm hM
  · constructor
    · rw [hx, listMin_affine _ (hne _) _ _ hM]
      simp
    · rw [hx, listMax_affine _ (hne _) _ _ hM, hm, sub_zero]
      exact div_self (ne_of_gt hM)
  · constructor
    · rw [hy, listMin_affine _ (hne _) _ _ hM]
      simp
    · rw [hy, listMax_affine _ (hne _) _ _ hM, hm, sub_zero]
      exact div_self (ne_of_gt hM)
  · constructor
    · rw [hz, listMin_affine _ (hne _) _ _ hM]
      simp
    · rw [hz, listMax_affine _ (hne _) _ _ hM, hm, sub_zero]
      exact div_self (ne_of_gt hM)
  · constructor
    · rw [hrr, listMin_affine _ (hne _) _ _ hM]
      simp
    · rw [hrr, listMax_affine _ (hne _) _ _ hM, hm, sub_zero]
      exact div_self (ne_of_gt hM)

/-- Witness for `normalizer_unit_range`: a two-node tree whose x field is
`[0, 2]` — minimum 0, maximum 2 — normalizes that field to min 0, max 1. -/
theorem normalizer_unit_range_witness :
    listMin ((normalizer [⟨0, 0, 0, 0, 0, -1⟩, ⟨1, 2, 1, 3, 4, 0⟩]).map SWCNode.x) = 0 ∧
    listMax ((normalizer [⟨0, 0, 0, 0, 0, -1⟩, ⟨1, 2, 1, 3, 4, 0⟩]).map SWCNode.x) = 1 :=
  (normalizer_unit_range [⟨0, 0, 0, 0, 0, -1⟩, ⟨1, 2, 1, 3, 4, 0⟩]
      (by simp)).2.1
    (by norm_num [listMin, min_def])
    (by norm_num [listMax, max_def])

/-- C2 counterexample: on a tree whose x values are `[1, 3]` the normalized
x column is `[0, 2/3]` — its maximum is not 1, because the source divides by
the original maximum `3`, not by the range `2`. -/
theorem normalizer_not_unit_range :
    listMax ((normalizer [⟨0, 1, 0, 0, 1, -1⟩, ⟨1, 3, 0, 0, 1, 0⟩]).map SWCNode.x) ≠ 1 := by
  simp only [normalizer, listMin, listMax, List.map_cons, List.map_nil,
    List.foldl_cons, List.foldl_nil]
  norm_num [min_def, max_def]

/-! ## Rose-tree induction and branch-walk lemmas -/

theorem RTree.strongInd (P : RTree → Prop)
    (h : ∀ i cs, (∀ c ∈ cs, P c) → P (RTree.mk i cs)) : ∀ t, P t
  | .mk i cs => h i cs (fun c hc => RTree.strongInd P h c)
termination_by t => sizeOf t
decreasing_by
  simp_wf
  have := List.sizeOf_lt_of_mem hc
  omega

theorem tailId_closed (i : Int) (acc : List Int) :
    tailId ((i :: acc).reverse) = i := by
  rw [tailId, List.getLastD_eq_getLast?, List.getLast?_reverse]
  rfl

theorem headId_closed (i : Int) (acc : List Int) :
    headId ((i :: acc).reverse) = (i :: acc).getLastD 0 := by
  rw [headId, List.headD_eq_head?, List.head?_reverse,
    List.getLastD_eq_getLast?]

theorem getLastD_irrel (l : List Int) (hl : l ≠ []) (d d' : Int) :
    l.getLastD d = l.getLastD d' := by
  cases l with
  | nil => exact absurd rfl hl
  | cons a l => rw [List.getLastD_cons, List.getLastD_cons]

theorem goBranchF_tails (cs : List RTree) (i : Int)
    (ih : ∀ c ∈ cs, ∀ acc, (goBranch c acc).map tailId = sigIds c) :
    (goBranchF cs i).map tailId = sigIdsF cs := by
  induction cs with
  | nil => rfl
  | cons c cs ihcs =>
      rw [goBranchF, sigIdsF, List.map_append,
        ih c (List.mem_cons_self c cs),
        ihcs (fun c' hc' => ih c' (List.mem_cons_of_mem c hc'))]

theorem goBranch_tails : ∀ t, ∀ acc, (goBranch t acc).map tailId = sigIds t := by
  refine RTree.strongInd (fun t => ∀ acc, (goBranch t acc).map tailId = sigIds t) ?_
  intro i cs ih
  match cs with
  | [] =>
      intro acc
      rw [goBranch, List.map_cons, List.map_nil, tailId_closed]
      rfl
  | [c] =>
      intro acc
      rw [goBranch, ih c (List.mem_cons_self c []), sigIds, sigIdsF, sigIdsF]
      simp
  | c1 :: c2 :: cs' =>
      intro acc
      rw [goBranch, sigIds, List.map_cons, tailId_closed,
        goBranchF_tails _ _ (fun c hc => ih c hc)]
      simp

theorem extractBranches_tails (t : RTree) :
    (extractBranches t).map tailId = sigIdsF t.children := by
  cases t with
  | mk i cs =>
      exact goBranchF_tails cs i (fun c _ => goBranch_tails c)

theorem goBranchF_heads (cs : List RTree) (i : Int)
    (ih : ∀ c ∈ cs, ∀ acc, acc ≠ [] → ∀ br ∈ goBranch c acc,
      headId br = acc.getLastD 0 ∨ headId br ∈ sigIds c) :
    ∀ br ∈ goBranchF cs i, headId br = i ∨ headId br ∈ sigIdsF cs := by
  induction cs with
  | nil => intro br h; cases h
  | cons c cs ihcs =>
      intro br hbr
      rw [goBranchF, List.mem_append] at hbr
      rcases hbr with h | h
      · rcases ih c (List.mem_cons_self c cs) [i] (by simp) br h with h' | h'
        · exact Or.inl (by simpa using h')
        · exact Or.inr (by rw [sigIdsF, List.mem_append]; exact Or.inl h')
      · rcases ihcs (fun c' hc' => ih c' (List.mem_cons_of_mem c hc')) br h with
          h' | h'
        · exact Or.inl h'
        · exact Or.inr (by rw [sigIdsF, List.mem_append]; exact Or.inr h')

theorem goBranch_heads : ∀ t, ∀ acc, acc ≠ [] → ∀ br ∈ goBranch t acc,
    headId br = acc.getLastD 0 ∨ headId br ∈ sigIds t := by
  refine RTree.strongInd (fun t => ∀ acc, acc ≠ [] → ∀ br ∈ goBranch t acc,
    headId br = acc.getLastD 0 ∨ headId br ∈ sigIds t) ?_
  intro i cs ih
  match cs with
  | [] =>
      intro acc hacc br hbr
      rw [goBranch, List.mem_singleton] at hbr
      subst hbr
      rw [headId_closed, List.getLastD_cons]
      exact Or.inl (getLastD_irrel acc hacc i 0)
  | [c] =>
      intro acc hacc br hbr
      rw [goBranch] at hbr
      rcases ih c (List.mem_cons_self c []) (i :: acc) (by simp) br hbr with
        h | h
      · rw [List.getLastD_cons] at h
        rw [h]
        exact Or.inl (getLastD_irrel acc hacc i 0)
      · refine Or.inr ?_
        rw [sigIds, sigIdsF, sigIdsF]
        simpa using h
  | c1 :: c2 :: cs' =>
      intro acc hacc br hbr
      rw [goBranch, List.mem_cons] at hbr
      rcases hbr with h | h
      · subst h
        rw [headId_closed, List.getLastD_cons]
        exact Or.inl (getLastD_irrel acc hacc i 0)
      · rcases goBranchF_heads _ _ (fun c hc => ih c hc) br h with h' | h'
        · refine Or.inr ?_
          rw [h', sigIds]
          simp
        · refine Or.inr ?_
          rw [sigIds]
          simp only [List.mem_append]
          exact Or.inr h'

theorem extractBranches_heads (t : RTree) :
    ∀ br ∈ extractBranches t,
      headId br = t.rootId ∨ headId br ∈ sigIdsF t.children := by
  cases t with
  | mk i cs =>
      exact goBranchF_heads cs i (fun c _ => goBranch_heads c)

/-! ## Significant nodes versus branching and tip nodes -/

theorem sigF_mem (cs : List RTree)
    (ih : ∀ c ∈ cs, ∀ a, a ∈ sigIds c ↔ (a ∈ branchingIds c ∨ a ∈ tipIds c)) :
    ∀ a, a ∈ sigIdsF cs ↔ (a ∈ branchingIdsF cs ∨ a ∈ tipIdsF cs) := by
  induction cs with
  | nil => intro a; simp [sigIdsF, branchingIdsF, tipIdsF]
  | cons c cs ihcs =>
      intro a
      rw [sigIdsF, branchingIdsF, tipIdsF, List.mem_append, List.mem_append,
        List.mem_append, ih c (List.mem_cons_self c cs),
        ihcs (fun c' hc' => ih c' (List.mem_cons_of_mem c hc')) a]
      tauto

theorem sig_mem : ∀ t, ∀ a, a ∈ sigIds t ↔ (a ∈ branchingIds t ∨ a ∈ tipIds t) := by
  refine RTree.strongInd
    (fun t => ∀ a, a ∈ sigIds t ↔ (a ∈ branchingIds t ∨ a ∈ tipIds t)) ?_
  intro i cs ih a
  have hF := sigF_mem cs ih a
  rw [sigIds, branchingIds, tipIds]
  by_cases h1 : cs.length = 1
  · have h2 : ¬ 2 ≤ cs.length := by omega
    have h0 : ¬ cs.length = 0 := by omega
    simp only [if_pos h1, if_neg h2, if_neg h0, List.nil_append,
      List.mem_append, List.not_mem_nil, false_or]
    tauto
  · by_cases h0 : cs.length = 0
    · have h2 : ¬ 2 ≤ cs.length := by omega
      simp only [if_neg h1, if_neg h2, if_pos h0, List.nil_append,
        List.singleton_append, List.mem_cons, List.mem_append,
        List.not_mem_nil, false_or]
      tauto
    · have h2 : 2 ≤ cs.length := by omega
      simp only [if_neg h1, if_pos h2, if_neg h0, List.nil_append,
        List.singleton_append, List.mem_cons, List.mem_append,
        List.not_mem_nil, or_false]
      tauto

theorem sigF_length (cs : List RTree)
    (ih : ∀ c ∈ cs,
      (sigIds c).length = (branchingIds c).length + (tipIds c).length) :
    (sigIdsF cs).length = (branchingIdsF cs).length + (tipIdsF cs).length := by
  induction cs with
  | nil => rfl
  | cons c cs ihcs =>
      rw [sigIdsF, branchingIdsF, tipIdsF, List.length_append,
        List.length_append, List.length_append,
        ih c (List.mem_cons_self c cs),
        ihcs (fun c' hc' => ih c' (List.mem_cons_of_mem c hc'))]
      omega

theorem sig_length :
    ∀ t, (sigIds t).length = (branchingIds t).length + (tipIds t).length := by
  refine RTree.strongInd
    (fun t => (sigIds t).length = (branchingIds t).length + (tipIds t).length) ?_
  intro i cs ih
  have hF := sigF_length cs ih
  rw [sigIds, branchingIds, tipIds, List.length_append, List.length_append,
    List.length_append, hF]
  by_cases h1 : cs.length = 1
  · have h2 : ¬ 2 ≤ cs.length := by omega
    have h0 : ¬ cs.length = 0 := by omega
    rw [if_pos h1, if_neg h2, if_neg h0]
    simp only [List.length_nil, List.length_cons]
    omega
  · by_cases h0 : cs.length = 0
    · have h2 : ¬ 2 ≤ cs.length := by omega
      rw [if_neg h1, if_neg h2, if_pos h0]
      simp only [List.length_nil, List.length_cons]
      omega
    · have h2 : 2 ≤ cs.length := by omega
      rw [if_neg h1, if_pos h2, if_neg h0]
      simp only [List.length_nil, List.length_cons]
      omega

/-! ## Significant ids sit inside the node ids -/

theorem sigF_sublist (cs : List RTree)
    (ih : ∀ c ∈ cs, (sigIds c).Sublist (nodeIds c)) :
    (sigIdsF cs).Sublist (nodeIdsF cs) := by
  induction cs with
  | nil => exact List.Sublist.refl []
  | cons c cs ihcs =>
      rw [sigIdsF, nodeIdsF]
      exact List.Sublist.append (ih c (List.mem_cons_self c cs))
        (ihcs (fun c' hc' => ih c' (List.mem_cons_of_mem c hc')))

theorem sig_sublist : ∀ t, (sigIds t).Sublist (nodeIds t) := by
  refine RTree.strongInd (fun t => (sigIds t).Sublist (nodeIds t)) ?_
  intro i cs ih
  have hF := sigF_sublist cs ih
  rw [sigIds, nodeIds]
  by_cases h1 : cs.length = 1
  · rw [if_pos h1, List.nil_append]
    exact hF.trans (List.sublist_cons_self i (nodeIdsF cs))
  · rw [if_neg h1, List.singleton_append]
    exact hF.cons₂ i

/-! ## The sub-tree request built by `from_tree` is well-formed -/

theorem RTree.children_mk (i : Int) (cs : List RTree) :
    (RTree.mk i cs).children = cs := rfl

theorem RTree.rootId_mk (i : Int) (cs : List RTree) :
    (RTree.mk i cs).rootId = i := rfl

theorem subIds_eq (t : RTree) :
    subIds (extractBranches t) = 0 :: sigIdsF t.children := by
  rw [subIds, extractBranches_tails]

theorem mem_nodeIds_of_mem_sigIdsF (t : RTree) (a : Int)
    (h : a ∈ sigIdsF t.children) : a ∈ nodeIds t := by
  cases t with
  | mk i cs =>
      have hs := sigF_sublist cs (fun c _ => sig_sublist c)
      rw [RTree.children_mk] at h
      rw [nodeIds]
      exact List.mem_cons_of_mem i (hs.subset h)

theorem subIds_nodup (t : RTree) (hv : t.valid) (h0 : t.rootId = 0) :
    (subIds (extractBranches t)).Nodup := by
  cases t with
  | mk i cs =>
      rw [subIds_eq, RTree.children_mk]
      rw [RTree.valid, nodeIds] at hv
      rw [RTree.rootId_mk] at h0
      subst h0
      have hs := sigF_sublist cs (fun c _ => sig_sublist c)
      exact hv.sublist (hs.cons₂ 0)

theorem toSubTree_fromTree (t : RTree) (hv : t.valid) (h0 : t.rootId = 0) :
    toSubTree t (subIds (extractBranches t)) (subPids (extractBranches t)) =
      some ((subIds (extractBranches t)).length,
        fun a => idIndex? (subIds (extractBranches t)) a) := by
  rw [toSubTree, if_pos]
  refine ⟨subIds_nodup t hv h0, ?_, ?_⟩
  · intro a ha
    rw [subIds_eq] at ha
    rcases List.mem_cons.mp ha with h | h
    · subst h
      cases t with
      | mk i cs =>
          rw [RTree.rootId_mk] at h0
          rw [nodeIds, h0]
          exact List.mem_cons_self 0 (nodeIdsF cs)
    · exact mem_nodeIds_of_mem_sigIdsF t a h
  · intro p hp
    rw [subPids] at hp
    rcases List.mem_cons.mp hp with h | h
    · exact Or.inl h
    · rcases List.mem_map.mp h with ⟨br, hbr, hhd⟩
      refine Or.inr ?_
      rw [subIds_eq]
      rcases extractBranches_heads t br hbr with h' | h'
      · rw [← hhd, h', h0]
        exact List.mem_cons_self 0 (sigIdsF t.children)
      · rw [← hhd]
        exact List.mem_cons_of_mem 0 h'

theorem idIndex?_of_mem :
    ∀ (l : List Int) (a : Int), a ∈ l →
      ∃ k, idIndex? l a = some k ∧ k < l.length := by
  intro l
  induction l with
  | nil => intro a ha; cases ha
  | cons b l ihl =>
      intro a ha
      by_cases hb : b = a
      · exact ⟨0, by rw [idIndex?, if_pos hb], by simp⟩
      · rcases List.mem_cons.mp ha with h | h
        · exact absurd h.symm hb
        · rcases ihl a h with ⟨k, hk, hkl⟩
          refine ⟨k + 1, ?_, by simp; omega⟩
          rw [idIndex?, if_neg hb, hk]
          rfl

theorem idIndex?_lt :
    ∀ (l : List Int) (a : Int) (k : Nat), idIndex? l a = some k → k < l.length := by
  intro l
  induction l with
  | nil => intro a k h; cases h
  | cons b l ihl =>
      intro a k h
      rw [idIndex?] at h
      split at h
      · cases h
        simp
      · rcases hq : idIndex? l a with _ | k'
        · rw [hq] at h; cases h
        · rw [hq] at h
          cases h
          have := ihl a k' hq
          simp
          omega

theorem attachBranches_total (idmap : Int → Option Nat) :
    ∀ (brs : List (List Int)) (d : BranchDict),
      (∀ br ∈ brs, (idmap (headId br)).isSome) →
      ∃ d', attachBranches idmap brs d = some d' := by
  intro brs
  induction brs with
  | nil => intro d _; exact ⟨d, rfl⟩
  | cons br brs ihb =>
      intro d hall
      rcases hk : idmap (headId br) with _ | k
      · have := hall br (List.mem_cons_self br brs)
        rw [hk] at this
        cases this
      · rcases ihb (dictAppend d k br)
          (fun br' hbr' => hall br' (List.mem_cons_of_mem br hbr')) with ⟨d', hd'⟩
        exact ⟨d', by rw [attachBranches, hk]; exact hd'⟩

theorem fromTree_some (t : RTree) (hv : t.valid) (h0 : t.rootId = 0) :
    ∃ bt, fromTree t = some bt ∧
      bt.count = (subIds (extractBranches t)).length := by
  have hts := toSubTree_fromTree t hv h0
  have hall : ∀ br ∈ extractBranches t,
      (idIndex? (subIds (extractBranches t)) (headId br)).isSome := by
    intro br hbr
    have hmem : headId br ∈ subIds (extractBranches t) := by
      rw [subIds_eq]
      rcases extractBranches_heads t br hbr with h' | h'
      · rw [h', h0]
        exact List.mem_cons_self 0 (sigIdsF t.children)
      · exact List.mem_cons_of_mem 0 h'
    rcases idIndex?_of_mem _ _ hmem with ⟨k, hk, _⟩
    rw [hk]
    rfl
  rcases attachBranches_total _ (extractBranches t) [] hall with ⟨d, hd⟩
  refine ⟨⟨(subIds (extractBranches t)).length, d⟩, ?_, rfl⟩
  rw [fromTree, hts]
  show Option.map (fun d => BranchTreeM.mk (subIds (extractBranches t)).length d)
      (attachBranches (fun a => idIndex? (subIds (extractBranches t)) a)
        (extractBranches t) []) = _
  rw [hd]
  rfl

/-! ## Claim C3 -/

/-- C3 (amended): the retained id list passed to the Sub-Tree Builder pairs
the literal id `0` — the conventional root id, equal to the source root's id
under the root-id-0 convention — with parent sentinel `-1`, and pairs every
branch's last id with that branch's first id; as a set it consists of id `0`
together with every branch's first and last ids. -/
theorem retained_ids_and_parents (t : RTree) (h0 : t.rootId = 0) :
    ((subIds (extractBranches t)).zip (subPids (extractBranches t)) =
      (0, -1) :: (extractBranches t).map (fun br => (tailId br, headId br))) ∧
    (∀ a, a ∈ subIds (extractBranches t) ↔
      (a = t.rootId ∨ (∃ br ∈ extractBranches t, headId br = a) ∨
        (∃ br ∈ extractBranches t, tailId br = a))) := by
  constructor
  · rw [subIds, subPids, List.zip_cons_cons, List.zip_map']
  · intro a
    constructor
    · intro ha
      rw [subIds] at ha
      rcases List.mem_cons.mp ha with h | h
      · exact Or.inl (h.trans h0.symm)
      · rcases List.mem_map.mp h with ⟨br, hbr, htl⟩
        exact Or.inr (Or.inr ⟨br, hbr, htl⟩)
    · intro ha
      rcases ha with h | ⟨br, hbr, hhd⟩ | ⟨br, hbr, htl⟩
      · rw [subIds, h, h0]
        exact List.mem_cons_self 0 _
      · rw [subIds_eq]
        rcases extractBranches_heads t br hbr with h' | h'
        · rw [← hhd, h', h0]
          exact List.mem_cons_self 0 _
        · rw [← hhd]
          exact List.mem_cons_of_mem 0 h'
      · rw [subIds]
        rw [← htl]
        exact List.mem_cons_of_mem 0 (List.mem_map_of_mem tailId hbr)

/-- Witness for `retained_ids_and_parents`: the spec's five-node scenario
(root 0 → 1 → 2, fork at 2 into tips 3 and 4). -/
theorem retained_ids_and_parents_witness :
    ((subIds (extractBranches (RTree.mk 0 [RTree.mk 1 [RTree.mk 2
        [RTree.mk 3 [], RTree.mk 4 []]]]))).zip
      (subPids (extractBranches (RTree.mk 0 [RTree.mk 1 [RTree.mk 2
        [RTree.mk 3 [], RTree.mk 4 []]]]))) =
      (0, -1) :: (extractBranches (RTree.mk 0 [RTree.mk 1 [RTree.mk 2
        [RTree.mk 3 [], RTree.mk 4 []]]])).map
          (fun br => (tailId br, headId br))) ∧
    (∀ a, a ∈ subIds (extractBranches (RTree.mk 0 [RTree.mk 1 [RTree.mk 2
        [RTree.mk 3 [], RTree.mk 4 []]]])) ↔
      (a = (RTree.mk 0 [RTree.mk 1 [RTree.mk 2
          [RTree.mk 3 [], RTree.mk 4 []]]]).rootId ∨
        (∃ br ∈ extractBranches (RTree.mk 0 [RTree.mk 1 [RTree.mk 2
          [RTree.mk 3 [], RTree.mk 4 []]]]), headId br = a) ∨
        (∃ br ∈ extractBranches (RTree.mk 0 [RTree.mk 1 [RTree.mk 2
          [RTree.mk 3 [], RTree.mk 4 []]]]), tailId br = a))) :=
  retained_ids_and_parents
    (RTree.mk 0 [RTree.mk 1 [RTree.mk 2 [RTree.mk 3 [], RTree.mk 4 []]]]) rfl

/-- C3 counterexample: on a valid two-node tree whose root has id `7`, the
code inserts the literal id `0` into the retained set — `0` is retained yet
is neither the root's id nor any branch endpoint, so the claimed retained
set (root's id plus branch endpoints, "whatever the root id is") is wrong. -/
theorem retained_ids_root_seven :
    (0 : Int) ∈ subIds (extractBranches (RTree.mk 7 [RTree.mk 3 []])) ∧
    ¬((0 : Int) = (RTree.mk 7 [RTree.mk 3 []]).rootId ∨
      (∃ br ∈ extractBranches (RTree.mk 7 [RTree.mk 3 []]), headId br = 0) ∨
      (∃ br ∈ extractBranches (RTree.mk 7 [RTree.mk 3 []]), tailId br = 0)) := by
  decide

/-! ## Claim C5 -/

/-- C5 (amended): for a valid tree with root id `0`, the reduced tree's node
set is exactly {root} ∪ {branching nodes} ∪ {tip nodes} of the source tree,
and its node count is `1 + (non-root branching nodes) + (non-root tips)` —
which equals `1 + |branching| + |tips|` exactly when the root is neither
branching nor a tip, i.e. has exactly one child. -/
theorem branch_tree_node_count (t : RTree) (bt : BranchTreeM)
    (hv : t.valid) (h0 : t.rootId = 0) (h : fromTree t = some bt) :
    bt.count = 1 + (branchingIdsF t.children).length +
      (tipIdsF t.children).length ∧
    (∀ a, a ∈ subIds (extractBranches t) ↔
      (a = t.rootId ∨ a ∈ branchingIds t ∨ a ∈ tipIds t)) := by
  cases t with
  | mk i cs =>
      rw [RTree.rootId_mk] at h0
      subst h0
      obtain ⟨bt', h', hcnt⟩ := fromTree_some (RTree.mk 0 cs) hv rfl
      rw [h] at h'
      injection h' with hbt
      subst hbt
      constructor
      · rw [hcnt, subIds_eq, RTree.children_mk, List.length_cons,
          sigF_length cs (fun c _ => sig_length c)]
        omega
      · intro a
        rw [subIds_eq, RTree.children_mk, RTree.rootId_mk]
        have hbm := sigF_mem cs (fun c _ => sig_mem c) a
        rw [branchingIds, tipIds]
        simp only [List.mem_cons, List.mem_append]
        constructor
        · rintro (h | h)
          · exact Or.inl h
          · rcases hbm.mp h with h' | h'
            · exact Or.inr (Or.inl (Or.inr h'))
            · exact Or.inr (Or.inr (Or.inr h'))
        · rintro (h | (h | h) | (h | h))
          · exact Or.inl h
          · refine Or.inl ?_
            by_cases h2 : 2 ≤ cs.length
            · rw [if_pos h2] at h
              simpa using h
            · rw [if_neg h2] at h
              exact absurd h (List.not_mem_nil a)
          · exact Or.inr (hbm.mpr (Or.inl h))
          · refine Or.inl ?_
            by_cases hz : cs.length = 0
            · rw [if_pos hz] at h
              simpa using h
            · rw [if_neg hz] at h
              exact absurd h (List.not_mem_nil a)
          · exact Or.inr (hbm.mpr (Or.inr h))

/-- Witness for `branch_tree_node_count`: the spec's five-node scenario has
a four-node branch tree — the root, branching node 2 and tips 3, 4. -/
theorem branch_tree_node_count_witness :
    (BranchTreeM.mk 4 [(0, [[0, 1, 2]]), (1, [[2, 3], [2, 4]])]).count =
      1 + (branchingIdsF (RTree.mk 0 [RTree.mk 1 [RTree.mk 2
        [RTree.mk 3 [], RTree.mk 4 []]]]).children).length +
      (tipIdsF (RTree.mk 0 [RTree.mk 1 [RTree.mk 2
        [RTree.mk 3 [], RTree.mk 4 []]]]).children).length ∧
    (∀ a, a ∈ subIds (extractBranches (RTree.mk 0 [RTree.mk 1 [RTree.mk 2
        [RTree.mk 3 [], RTree.mk 4 []]]])) ↔
      (a = (RTree.mk 0 [RTree.mk 1 [RTree.mk 2
          [RTree.mk 3 [], RTree.mk 4 []]]]).rootId ∨
        a ∈ branchingIds (RTree.mk 0 [RTree.mk 1 [RTree.mk 2
          [RTree.mk 3 [], RTree.mk 4 []]]]) ∨
        a ∈ tipIds (RTree.mk 0 [RTree.mk 1 [RTree.mk 2
          [RTree.mk 3 [], RTree.mk 4 []]]]))) :=
  branch_tree_node_count
    (RTree.mk 0 [RTree.mk 1 [RTree.mk 2 [RTree.mk 3 [], RTree.mk 4 []]]])
    (BranchTreeM.mk 4 [(0, [[0, 1, 2]]), (1, [[2, 3], [2, 4]])])
    (by decide) rfl (by decide)

/-- C5 counterexample: the degenerate single-node tree (root id 0, no
children) reduces to one node, but the claimed formula
`1 + |branching| + |tips|` gives 2 because the root itself is a tip. -/
theorem node_count_formula_fails_single :
    fromTree (RTree.mk 0 []) = some (BranchTreeM.mk 1 []) ∧
    (BranchTreeM.mk 1 []).count ≠
      1 + (branchingIds (RTree.mk 0 [])).length +
        (tipIds (RTree.mk 0 [])).length := by
  decide

/-! ## Branch-dict lemmas -/

theorem dictGet?_isSome_iff (d : BranchDict) (k : Nat) :
    (dictGet? d k).isSome ↔ k ∈ dictKeys d := by
  induction d with
  | nil => simp [dictGet?, dictKeys]
  | cons p d ihd =>
      obtain ⟨k', vs⟩ := p
      rw [dictGet?, dictKeys, List.map_cons, List.mem_cons]
      by_cases hk : k' = k
      · rw [if_pos hk]
        simp [hk]
      · rw [if_neg hk]
        rw [ihd, dictKeys]
        constructor
        · exact fun h => Or.inr h
        · rintro (h | h)
          · exact absurd h.symm hk
          · exact h

theorem dictGet?_none_of_not_mem (d : BranchDict) (k : Nat)
    (h : k ∉ dictKeys d) : dictGet? d k = none := by
  rcases hq : dictGet? d k with _ | vs
  · rfl
  · exact absurd ((dictGet?_isSome_iff d k).mp (by rw [hq]; rfl)) h

theorem dictAppend_keys_mem (d : BranchDict) (k0 : Nat) (v : List Int) (k : Nat) :
    k ∈ dictKeys (dictAppend d k0 v) ↔ (k ∈ dictKeys d ∨ k = k0) := by
  induction d with
  | nil => simp [dictAppend, dictKeys, eq_comm]
  | cons p d ihd =>
      obtain ⟨k', vs⟩ := p
      rw [dictAppend]
      by_cases hk : k' = k0
      · rw [if_pos hk]
        subst hk
        simp only [dictKeys, List.map_cons, List.mem_cons]
        tauto
      · rw [if_neg hk]
        simp only [dictKeys, List.map_cons, List.mem_cons]
        rw [show (List.map Prod.fst (dictAppend d k0 v) : List Nat) =
          dictKeys (dictAppend d k0 v) from rfl, ihd]
        rw [show (List.map Prod.fst d : List Nat) = dictKeys d from rfl]
        tauto

theorem dictAppend_keys_nodup (d : BranchDict) (k0 : Nat) (v : List Int)
    (hn : (dictKeys d).Nodup) : (dictKeys (dictAppend d k0 v)).Nodup := by
  induction d with
  | nil => simp [dictAppend, dictKeys]
  | cons p d ihd =>
      obtain ⟨k', vs⟩ := p
      rw [dictKeys, List.map_cons, List.nodup_cons] at hn
      rw [dictAppend]
      by_cases hk : k' = k0
      · rw [if_pos hk, dictKeys, List.map_cons, List.nodup_cons]
        exact ⟨hn.1, hn.2⟩
      · rw [if_neg hk, dictKeys, List.map_cons, List.nodup_cons]
        refine ⟨?_, ihd hn.2⟩
        intro hmem
        rcases (dictAppend_keys_mem d k0 v k').mp hmem with h | h
        · exact hn.1 h
        · exact hk h

theorem dictAppend_flat (d : BranchDict) (k0 : Nat) (v : List Int) :
    ((dictAppend d k0 v).flatMap Prod.snd).Perm
      ((d.flatMap Prod.snd) ++ [v]) := by
  induction d with
  | nil => simp [dictAppend]
  | cons p d ihd =>
      obtain ⟨k', vs⟩ := p
      rw [dictAppend]
      by_cases hk : k' = k0
      · rw [if_pos hk]
        simp only [List.flatMap_cons, List.append_assoc]
        exact List.Perm.append_left vs List.perm_append_comm
      · rw [if_neg hk]
        simp only [List.flatMap_cons, List.append_assoc]
        exact List.Perm.append_left vs (by simpa using ihd)

theorem dictGet?_dictAppend_self (d : BranchDict) (k0 : Nat) (v : List Int) :
    ∃ vs, dictGet? (dictAppend d k0 v) k0 = some vs ∧ v ∈ vs := by
  induction d with
  | nil => exact ⟨[v], by rw [dictAppend, dictGet?, if_pos rfl], by simp⟩
  | cons p d ihd =>
      obtain ⟨k', vs⟩ := p
      rw [dictAppend]
      by_cases hk : k' = k0
      · rw [if_pos hk]
        exact ⟨vs ++ [v], by rw [dictGet?, if_pos hk], by simp⟩
      · rw [if_neg hk]
        rcases ihd with ⟨vs', hvs', hv⟩
        exact ⟨vs', by rw [dictGet?, if_neg hk]; exact hvs', hv⟩

theorem dictGet?_dictAppend_mono (d : BranchDict) (k0 : Nat) (v0 : List Int)
    (k : Nat) (vs : List (List Int)) (v : List Int)
    (hg : dictGet? d k = some vs) (hv : v ∈ vs) :
    ∃ vs', dictGet? (dictAppend d k0 v0) k = some vs' ∧ v ∈ vs' := by
  induction d with
  | nil => cases hg
  | cons p d ihd =>
      obtain ⟨k', vs''⟩ := p
      rw [dictGet?] at hg
      rw [dictAppend]
      by_cases hk : k' = k0
      · rw [if_pos hk]
        by_cases hkk : k' = k
        · rw [if_pos hkk] at hg
          have hge : vs'' = vs := Option.some.inj hg
          refine ⟨vs'' ++ [v0], by rw [dictGet?, if_pos hkk], ?_⟩
          rw [hge]
          simp [hv]
        · rw [if_neg hkk] at hg
          exact ⟨vs, by rw [dictGet?, if_neg hkk]; exact hg, hv⟩
      · rw [if_neg hk]
        by_cases hkk : k' = k
        · rw [if_pos hkk] at hg
          have hge : vs'' = vs := Option.some.inj hg
          refine ⟨vs'', by rw [dictGet?, if_pos hkk], ?_⟩
          rw [hge]
          exact hv
        · rw [if_neg hkk] at hg
          rcases ihd hg with ⟨vs', hvs', hv'⟩
          exact ⟨vs', by rw [dictGet?, if_neg hkk]; exact hvs', hv'⟩

/-! ## Attachment-loop lemmas -/

theorem attachBranches_flat (idmap : Int → Option Nat) :
    ∀ (brs : List (List Int)) (d d' : BranchDict),
      attachBranches idmap brs d = some d' →
      (d'.flatMap Prod.snd).Perm ((d.flatMap Prod.snd) ++ brs) := by
  intro brs
  induction brs with
  | nil =>
      intro d d' h
      rw [attachBranches] at h
      injection h with h
      subst h
      simp
  | cons br rest ihb =>
      intro d d' h
      rw [attachBranches] at h
      rcases hk : idmap (headId br) with _ | k
      · rw [hk] at h; cases h
      · rw [hk] at h
        have hperm := ihb (dictAppend d k br) d' h
        refine hperm.trans ?_
        have hap := dictAppend_flat d k br
        refine (hap.append_right rest).trans ?_
        rw [List.append_assoc]
        exact List.Perm.append_left _ (by simp)

theorem attachBranches_mono (idmap : Int → Option Nat) :
    ∀ (brs : List (List Int)) (d d' : BranchDict),
      attachBranches idmap brs d = some d' →
      ∀ (k : Nat) (vs : List (List Int)) (v : List Int),
        dictGet? d k = some vs → v ∈ vs →
        ∃ vs', dictGet? d' k = some vs' ∧ v ∈ vs' := by
  intro brs
  induction brs with
  | nil =>
      intro d d' h k vs v hg hv
      rw [attachBranches] at h
      injection h with h
      subst h
      exact ⟨vs, hg, hv⟩
  | cons br rest ihb =>
      intro d d' h k vs v hg hv
      rw [attachBranches] at h
      rcases hk : idmap (headId br) with _ | k0
      · rw [hk] at h; cases h
      · rw [hk] at h
        rcases dictGet?_dictAppend_mono d k0 br k vs v hg hv with ⟨vs', hvs', hv'⟩
        exact ihb (dictAppend d k0 br) d' h k vs' v hvs' hv'

theorem attachBranches_mem (idmap : Int → Option Nat) :
    ∀ (brs : List (List Int)) (d d' : BranchDict),
      attachBranches idmap brs d = some d' →
      ∀ br ∈ brs, ∃ k vs, idmap (headId br) = some k ∧
        dictGet? d' k = some vs ∧ br ∈ vs := by
  intro brs
  induction brs with
  | nil => intro d d' _ br hbr; cases hbr
  | cons br0 rest ihb =>
      intro d d' h br hbr
      rw [attachBranches] at h
      rcases hk : idmap (headId br0) with _ | k0
      · rw [hk] at h; cases h
      · rw [hk] at h
        change attachBranches idmap rest (dictAppend d k0 br0) = some d' at h
        rcases List.mem_cons.mp hbr with hbr0 | hbrr
        · subst hbr0
          rcases dictGet?_dictAppend_self d k0 br with ⟨vs, hvs, hv⟩
          rcases attachBranches_mono idmap rest (dictAppend d k0 br) d' h
            k0 vs br hvs hv with ⟨vs', hvs', hv'⟩
          exact ⟨k0, vs', hk, hvs', hv'⟩
        · exact ihb (dictAppend d k0 br0) d' h br hbrr

theorem attachBranches_keys (idmap : Int → Option Nat) :
    ∀ (brs : List (List Int)) (d d' : BranchDict),
      attachBranches idmap brs d = some d' →
      ∀ k, k ∈ dictKeys d' ↔
        (k ∈ dictKeys d ∨ ∃ br ∈ brs, idmap (headId br) = some k) := by
  intro brs
  induction brs with
  | nil =>
      intro d d' h k
      rw [attachBranches] at h
      injection h with h
      subst h
      simp
  | cons br rest ihb =>
      intro d d' h k
      rw [attachBranches] at h
      rcases hk : idmap (headId br) with _ | k0
      · rw [hk] at h; cases h
      · rw [hk] at h
        change attachBranches idmap rest (dictAppend d k0 br) = some d' at h
        rw [ihb (dictAppend d k0 br) d' h k, dictAppend_keys_mem]
        constructor
        · rintro ((hm | hm) | hm)
          · exact Or.inl hm
          · exact Or.inr ⟨br, List.mem_cons_self br rest, by rw [hk, hm]⟩
          · rcases hm with ⟨br', hbr', hk'⟩
            exact Or.inr ⟨br', List.mem_cons_of_mem br hbr', hk'⟩
        · rintro (hm | ⟨br', hbr', hk'⟩)
          · exact Or.inl (Or.inl hm)
          · rcases List.mem_cons.mp hbr' with h0 | h0
            · subst h0
              rw [hk] at hk'
              exact Or.inl (Or.inr (Option.some.inj hk').symm)
            · exact Or.inr ⟨br', h0, hk'⟩

theorem attachBranches_keys_nodup (idmap : Int → Option Nat) :
    ∀ (brs : List (List Int)) (d d' : BranchDict),
      attachBranches idmap brs d = some d' →
      (dictKeys d).Nodup → (dictKeys d').Nodup := by
  intro brs
  induction brs with
  | nil =>
      intro d d' h hn
      rw [attachBranches] at h
      injection h with h
      subst h
      exact hn
  | cons br rest ihb =>
      intro d d' h hn
      rw [attachBranches] at h
      rcases hk : idmap (headId br) with _ | k0
      · rw [hk] at h; cases h
      · rw [hk] at h
        exact ihb (dictAppend d k0 br) d' h (dictAppend_keys_nodup d k0 br hn)

/-! ## Summing branch-list lengths over the retained new ids -/

theorem sum_range_dictGet (n : Nat) :
    ∀ d : BranchDict, (∀ k ∈ dictKeys d, k < n) → (dictKeys d).Nodup →
      (∑ k ∈ Finset.range n, ((dictGet? d k).getD []).length) =
        (d.flatMap Prod.snd).length := by
  intro d
  induction d with
  | nil => simp [dictGet?]
  | cons p d ihd =>
      obtain ⟨k0, vs0⟩ := p
      intro hb hn
      rw [dictKeys, List.map_cons, List.nodup_cons] at hn
      have hk0 : k0 ∉ dictKeys d := hn.1
      have hterm : ∀ k, ((dictGet? ((k0, vs0) :: d) k).getD []).length =
          (if k = k0 then vs0.length else 0) +
            ((dictGet? d k).getD []).length := by
        intro k
        rw [dictGet?]
        by_cases hk : k0 = k
        · rw [if_pos hk, if_pos hk.symm]
          have : dictGet? d k = none := by
            rw [← hk]
            exact dictGet?_none_of_not_mem d k0 hk0
          rw [this]
          simp
        · rw [if_neg hk, if_neg (fun hkk => hk hkk.symm)]
          omega
      rw [Finset.sum_congr rfl (fun k _ => hterm k), Finset.sum_add_distrib,
        Finset.sum_ite_eq' (Finset.range n) k0 (fun _ => vs0.length)]
      have hk0n : k0 ∈ Finset.range n := by
        rw [Finset.mem_range]
        refine hb k0 ?_
        rw [dictKeys, List.map_cons]
        exact List.mem_cons_self _ _
      have hb' : ∀ k ∈ dictKeys d, k < n := by
        intro k hk
        refine hb k ?_
        rw [dictKeys, List.map_cons]
        exact List.mem_cons_of_mem _ hk
      have hn' : (dictKeys d).Nodup := hn.2
      rw [if_pos hk0n, ihd hb' hn', List.flatMap_cons, List.length_append]

/-! ## Claims C6 and C7 -/

theorem fromTree_inv (t : RTree) (bt : BranchTreeM)
    (hv : t.valid) (h0 : t.rootId = 0) (h : fromTree t = some bt) :
    bt.count = (subIds (extractBranches t)).length ∧
    attachBranches (fun a => idIndex? (subIds (extractBranches t)) a)
      (extractBranches t) [] = some bt.branches := by
  rw [fromTree, toSubTree_fromTree t hv h0] at h
  change Option.map
      (fun d => BranchTreeM.mk (subIds (extractBranches t)).length d)
      (attachBranches (fun a => idIndex? (subIds (extractBranches t)) a)
        (extractBranches t) []) = some bt at h
  rcases ha : attachBranches (fun a => idIndex? (subIds (extractBranches t)) a)
      (extractBranches t) [] with _ | d
  · rw [ha] at h; cases h
  · rw [ha, Option.map_some'] at h
    injection h with h
    subst h
    exact ⟨rfl, rfl⟩

/-- C6: the number of branches filed over all retained new ids equals the
length of `get_branches()` and equals the number of extracted branches; in
fact `get_branches()` is a permutation of the extracted branch list — each
branch is attached exactly once, with its original (pre-remap) id sequence,
under the remapped id of its first node. -/
theorem branch_count_conservation (t : RTree) (bt : BranchTreeM)
    (hv : t.valid) (h0 : t.rootId = 0) (h : fromTree t = some bt) :
    (∑ k ∈ Finset.range bt.count,
        ((getNodeBranches? bt k).getD []).length) =
      (extractBranches t).length ∧
    (getBranches bt).length = (extractBranches t).length ∧
    (getBranches bt).Perm (extractBranches t) ∧
    (∀ br ∈ extractBranches t, ∃ k vs,
      idIndex? (subIds (extractBranches t)) (headId br) = some k ∧
      getNodeBranches? bt k = some vs ∧ br ∈ vs) := by
  obtain ⟨hcnt, hatt⟩ := fromTree_inv t bt hv h0 h
  have hperm : (getBranches bt).Perm (extractBranches t) := by
    have hp := attachBranches_flat _ (extractBranches t) [] bt.branches hatt
    rw [getBranches]
    simpa using hp
  have hkeys := attachBranches_keys _ (extractBranches t) [] bt.branches hatt
  have hbound : ∀ k ∈ dictKeys bt.branches, k < bt.count := by
    intro k hk
    rcases (hkeys k).mp hk with hm | ⟨br, hbr, hik⟩
    · simp [dictKeys] at hm
    · rw [hcnt]
      exact idIndex?_lt _ _ _ hik
  have hnodup := attachBranches_keys_nodup _ (extractBranches t) []
    bt.branches hatt (by simp [dictKeys])
  have hsum := sum_range_dictGet bt.count bt.branches hbound hnodup
  have hflat : (bt.branches.flatMap Prod.snd).length =
      (extractBranches t).length := hperm.length_eq
  refine ⟨hsum.trans hflat, hperm.length_eq, hperm, ?_⟩
  intro br hbr
  rcases attachBranches_mem _ (extractBranches t) [] bt.branches hatt br hbr
    with ⟨k, vs, hik, hget, hv'⟩
  exact ⟨k, vs, hik, hget, hv'⟩

/-- Witness for `branch_count_conservation`: the spec's five-node scenario,
whose branch tree files branch `[0,1,2]` under new id 0 and branches
`[2,3]`, `[2,4]` under new id 1. -/
theorem branch_count_conservation_witness :
    (∑ k ∈ Finset.range
        (BranchTreeM.mk 4 [(0, [[0, 1, 2]]), (1, [[2, 3], [2, 4]])]).count,
        ((getNodeBranches?
          (BranchTreeM.mk 4 [(0, [[0, 1, 2]]), (1, [[2, 3], [2, 4]])])
            k).getD []).length) =
      (extractBranches (RTree.mk 0 [RTree.mk 1 [RTree.mk 2
        [RTree.mk 3 [], RTree.mk 4 []]]])).length ∧
    (getBranches
        (BranchTreeM.mk 4 [(0, [[0, 1, 2]]), (1, [[2, 3], [2, 4]])])).length =
      (extractBranches (RTree.mk 0 [RTree.mk 1 [RTree.mk 2
        [RTree.mk 3 [], RTree.mk 4 []]]])).length ∧
    (getBranches
        (BranchTreeM.mk 4 [(0, [[0, 1, 2]]), (1, [[2, 3], [2, 4]])])).Perm
      (extractBranches (RTree.mk 0 [RTree.mk 1 [RTree.mk 2
        [RTree.mk 3 [], RTree.mk 4 []]]])) ∧
    (∀ br ∈ extractBranches (RTree.mk 0 [RTree.mk 1 [RTree.mk 2
        [RTree.mk 3 [], RTree.mk 4 []]]]), ∃ k vs,
      idIndex? (subIds (extractBranches (RTree.mk 0 [RTree.mk 1 [RTree.mk 2
        [RTree.mk 3 [], RTree.mk 4 []]]]))) (headId br) = some k ∧
      getNodeBranches?
        (BranchTreeM.mk 4 [(0, [[0, 1, 2]]), (1, [[2, 3], [2, 4]])]) k =
          some vs ∧ br ∈ vs) :=
  branch_count_conservation
    (RTree.mk 0 [RTree.mk 1 [RTree.mk 2 [RTree.mk 3 [], RTree.mk 4 []]]])
    (BranchTreeM.mk 4 [(0, [[0, 1, 2]]), (1, [[2, 3], [2, 4]])])
    (by decide) rfl (by decide)

/-- C7 (amended): `get_node_branches(k)` succeeds exactly when `k` is the
remapped id of the proximal endpoint of at least one extracted branch; a
retained node that heads no branch — any tip — raises `KeyError` even
though it is a retained node of the branch tree. -/
theorem get_node_branches_iff (t : RTree) (bt : BranchTreeM)
    (hv : t.valid) (h0 : t.rootId = 0) (h : fromTree t = some bt) :
    ∀ k, (getNodeBranches? bt k).isSome ↔
      ∃ br ∈ extractBranches t,
        idIndex? (subIds (extractBranches t)) (headId br) = some k := by
  obtain ⟨hcnt, hatt⟩ := fromTree_inv t bt hv h0 h
  intro k
  have hkeys := attachBranches_keys _ (extractBranches t) [] bt.branches hatt k
  rw [show getNodeBranches? bt k = dictGet? bt.branches k from rfl,
    dictGet?_isSome_iff, hkeys]
  simp [dictKeys]

/-- Witness for `get_node_branches_iff`: the two-node tree root 0 → tip 1. -/
theorem get_node_branches_iff_witness :
    (getNodeBranches? (BranchTreeM.mk 2 [(0, [[0, 1]])]) 0).isSome ↔
      ∃ br ∈ extractBranches (RTree.mk 0 [RTree.mk 1 []]),
        idIndex? (subIds (extractBranches (RTree.mk 0 [RTree.mk 1 []])))
          (headId br) = some 0 :=
  get_node_branches_iff (RTree.mk 0 [RTree.mk 1 []])
    (BranchTreeM.mk 2 [(0, [[0, 1]])]) (by decide) rfl (by decide) 0

/-- C7 counterexample: in the branch tree of the two-node chain 0 → 1 the
tip's new id 1 is a retained node (the node count is 2, new ids 0 and 1),
yet `get_node_branches(1)` fails with a lookup error — so lookup failure is
not equivalent to "not a retained node". -/
theorem get_node_branches_tip_fails :
    fromTree (RTree.mk 0 [RTree.mk 1 []]) =
      some (BranchTreeM.mk 2 [(0, [[0, 1]])]) ∧
    1 < (BranchTreeM.mk 2 [(0, [[0, 1]])]).count ∧
    getNodeBranches? (BranchTreeM.mk 2 [(0, [[0, 1]])]) 1 = none := by
  decide

end Swcgeom
